import Mathlib

/-!
Verification of the NameGenerator transition-model engine.

This development embeds the two engine variants found in the repository:

* `RandomWordGenerator` (Generator.cpp / Generator.h): a sparse third-order
  Markov model over an alphabet of characters.  C++ `unordered_map`s are
  modelled as insertion-ordered association lists (iteration order of the
  C++ containers is implementation-defined; every theorem below is stated
  through key lookup or membership, so it does not depend on that order).
  C++ `float` arithmetic is modelled by exact rational arithmetic.

* `RandomWordGeneratorFactory` (Factory.cpp / Factory.h): the historical
  dense-table variant, with alphabet size 26 and terminator index 26.
  The dense 27x27x27x27 `float` arrays are modelled as total functions on
  quadruples of `Fin 27`; the nested finalize loops write each cell once
  with a value that depends only on the cell's row, so they are embedded
  pointwise.

Characters are modelled as natural-number character codes; the C++
terminator character `'\x00'` is the code `0`.
-/

namespace NameGen

/-- Character code of a C++ `char`. -/
abbrev Sym := ℕ

/-- Value of the terminator character (`TERMINATOR = 0` in Generator.h). -/
def TERMINATOR : Sym := 0

/-- `State = std::tuple<char, char, char>`: the rolling trigram context. -/
abbrev State := Sym × Sym × Sym

/-- Shift of the rolling context: `State{std::get<1>(s), std::get<2>(s), c}`. -/
def shift (s : State) (c : Sym) : State := (s.2.1, s.2.2, c)

/-- An entry of a CDF row (`struct Edge { char c; float p; }`). -/
structure Edge where
  c : Sym
  p : ℚ
deriving DecidableEq, Repr

/-- `EdgeList = std::vector<Edge>`. -/
abbrev EdgeList := List Edge

/-- `EdgeMap = std::unordered_map<char, float>`, as an insertion-ordered
association list. -/
abbrev EdgeMap := List (Sym × ℚ)

/-- Lookup in an `EdgeMap`; absent keys read as `0` (the value
`operator[]` would default-construct). -/
def emGet : EdgeMap → Sym → ℚ
  | [], _ => 0
  | (k, v) :: rest, c => if k = c then v else emGet rest c

/-- `row[c] += w` on an `EdgeMap`: default-constructs `0` and adds `w` if
the key is absent (inserting it), otherwise adds `w` in place. -/
def emBump : EdgeMap → Sym → ℚ → EdgeMap
  | [], c, w => [(c, w)]
  | (k, v) :: rest, c, w =>
      if k = c then (k, v + w) :: rest else (k, v) :: emBump rest c w

/-- The sparse transition matrix
`std::unordered_map<State, EdgeMap, StateHash>`. -/
abbrev TransMatrix := List (State × EdgeMap)

/-- Lookup of the row for a state; a missing row reads as the empty map. -/
def tmGet : TransMatrix → State → EdgeMap
  | [], _ => []
  | (t, row) :: rest, s => if t = s then row else tmGet rest s

/-- `transitionMatrix_[s][c] += w`: default-constructs an empty row if the
state is absent and bumps the entry for `c`. -/
def tmBump : TransMatrix → State → Sym → ℚ → TransMatrix
  | [], s, c, w => [(s, [(c, w)])]
  | (t, row) :: rest, s, c, w =>
      if t = s then (t, emBump row c w) :: rest else (t, row) :: tmBump rest s c w

/-- The sparse CDF table
`std::unordered_map<State, EdgeList, StateHash>`. -/
abbrev CdfTable := List (State × EdgeList)

/-- Lookup of the CDF row for a state (`cdfs_.find(s)`). -/
def cdfGet : CdfTable → State → Option EdgeList
  | [], _ => none
  | (t, cdf) :: rest, s => if t = s then some cdf else cdfGet rest s

/-- Insertion into the CDF table with `operator[]` semantics: appending the
given edges to the existing row if the state is present, otherwise
appending a fresh entry. -/
def cdfPut : CdfTable → State → EdgeList → CdfTable
  | [], s, es => [(s, es)]
  | (t, cdf) :: rest, s, es =>
      if t = s then (t, cdf ++ es) :: rest else (t, cdf) :: cdfPut rest s es

/-- `class RandomWordGenerator`: alphabet, sparse transition matrix, sparse
CDF table and the finalized flag. -/
structure RWG where
  alphabet : List Sym
  transitionMatrix : TransMatrix
  cdfs : CdfTable
  finalized : Bool
deriving DecidableEq, Repr

/-- The default alphabet `"abcdefghijklmnopqrstuvwxyz"` as character codes. -/
def defaultAlphabet : List Sym := (List.range 26).map (fun i => 97 + i)

/-- The constructor `RandomWordGenerator(alphabet)`: empty transition graph,
not finalized. -/
def mkRWG (alphabet : List Sym) : RWG :=
  { alphabet := alphabet, transitionMatrix := [], cdfs := [], finalized := false }

/-- `inAlphabet(c)`: membership of a character in the alphabet. -/
def inAlphabet (alphabet : List Sym) (c : Sym) : Bool := alphabet.contains c

/-- The training loop of `analyzeWord`: bump `(context, character)` for each
character while rolling the context, returning the new matrix and the
final context. -/
def analyzeLoop (w : ℚ) : TransMatrix → State → List Sym → TransMatrix × State
  | tm, s, [] => (tm, s)
  | tm, s, c :: rest => analyzeLoop w (tmBump tm s c w) (shift s c) rest

/-- `RandomWordGenerator::analyzeWord(word, weight)`: rejects an empty word,
a finalized model, or any character outside the alphabet; otherwise walks
the word with a terminator-seeded rolling context, bumps every transition
by `weight` and finally bumps the transition into the terminator. -/
def analyzeWord (m : RWG) (word : List Sym) (weight : ℚ) : Bool × RWG :=
  if word = [] ∨ m.finalized then (false, m)
  else if ¬ word.all (inAlphabet m.alphabet) then (false, m)
  else
    let r := analyzeLoop weight m.transitionMatrix (TERMINATOR, TERMINATOR, TERMINATOR) word
    (true, { m with transitionMatrix := tmBump r.1 r.2 TERMINATOR weight })

/-- The scanning loop of `analyzeText`: the input is the suffix of the text
starting at the next word start; the maximal alphabet run is analyzed and
the loop continues after the following separator run. -/
def analyzeTextLoop (al : List Sym) (w : ℚ) (m : RWG) : List Sym → RWG
  | [] => m
  | c :: tail =>
      let word := c :: tail.takeWhile (inAlphabet al)
      let m' := (analyzeWord m word w).2
      analyzeTextLoop al w m'
        ((tail.dropWhile (inAlphabet al)).dropWhile (fun d => ¬ inAlphabet al d))
termination_by l => l.length
decreasing_by
  simp only [List.length_cons]
  exact Nat.lt_succ_of_le (le_trans
    ((List.dropWhile_suffix _).length_le) ((List.dropWhile_suffix _).length_le))

/-- `RandomWordGenerator::analyzeText(text, weight)`: rejects empty text, a
finalized model, or text with no alphabet character; otherwise analyzes
every maximal run of alphabet characters with the given weight. -/
def analyzeText (m : RWG) (text : List Sym) (weight : ℚ) : Bool × RWG :=
  if text = [] ∨ m.finalized then (false, m)
  else
    let start := text.dropWhile (fun d => ¬ inAlphabet m.alphabet d)
    if start = [] then (false, m)
    else (true, analyzeTextLoop m.alphabet weight m start)

/-- The per-row pass of `finalize`: the list of partial sums of the row (the
unnormalized CDF) together with the total sum. -/
def cdfScan : EdgeMap → ℚ → EdgeList × ℚ
  | [], sum => ([], sum)
  | (c, p) :: rest, sum =>
      let sum' := sum + p
      let r := cdfScan rest sum'
      (⟨c, sum'⟩ :: r.1, r.2)

/-- The per-row body of the `finalize` loop: builds the row's CDF, and when
the row's sum is positive normalizes both the frequency row (in place, as
the C++ does) and the CDF. -/
def finalizeRow (row : EdgeMap) : EdgeMap × EdgeList :=
  let r := cdfScan row 0
  if 0 < r.2 then
    (row.map (fun kv => (kv.1, kv.2 * (1 / r.2))), r.1.map (fun e => ⟨e.c, e.p * (1 / r.2)⟩))
  else (row, r.1)

/-- One iteration of the `finalize` loop over the transition matrix:
accumulates the (possibly normalized) frequency row and stores the row's
CDF under the row's state. -/
def finalizeStep (acc : TransMatrix × CdfTable) (entry : State × EdgeMap) :
    TransMatrix × CdfTable :=
  let r := finalizeRow entry.2
  (acc.1 ++ [(entry.1, r.1)], cdfPut acc.2 entry.1 r.2)

/-- `RandomWordGenerator::finalize()`: a no-op when already finalized;
otherwise processes every row of the transition matrix with
`finalizeRow`, stores the CDFs, and marks the model finalized. -/
def finalize (m : RWG) : RWG :=
  if m.finalized then m
  else
    let r := m.transitionMatrix.foldl finalizeStep ([], m.cdfs)
    { m with transitionMatrix := r.1, cdfs := r.2, finalized := true }

/-- `RandomWordGenerator::next(rng, s)`, split into the selected character
and whether a random value was consumed: a missing or empty CDF row yields
the terminator without drawing; otherwise the first edge whose cumulative
probability exceeds the drawn value is selected (`std::upper_bound`), the
last edge being the fallback when no entry exceeds it. -/
def nextStep (m : RWG) (s : State) (u : ℚ) : Sym × Bool :=
  match cdfGet m.cdfs s with
  | none => (TERMINATOR, false)
  | some [] => (TERMINATOR, false)
  | some (e :: es) =>
      (match (e :: es).find? (fun d => decide (u < d.p)) with
       | some d => (d.c, true)
       | none => (((e :: es).getLastD e).c, true))

/-- The selected character of `nextStep`. -/
def next (m : RWG) (s : State) (u : ℚ) : Sym := (nextStep m s u).1

/-- The generation loop of `generate`: appends characters until the
terminator is selected, advancing the random stream only when `next`
consumed a value. -/
def genLoop (m : RWG) (us : ℕ → ℚ) : ℕ → State → List Sym → ℕ → Option (List Sym)
  | 0, _, _, _ => none
  | fuel + 1, s, acc, i =>
      let r := nextStep m s (us i)
      let i' := if r.2 then i + 1 else i
      if r.1 = TERMINATOR then some acc
      else genLoop m us fuel (shift s r.1) (acc ++ [r.1]) i'

/-- `RandomWordGenerator::generate(rng)`: auto-finalizes an unfinalized
model, then runs the generation loop from the all-terminator context.  The
entropy source is modelled as the stream `us` of the values the C++
`uniform_real_distribution` would return; `fuel` bounds the number of loop
iterations, `none` meaning the loop did not finish within `fuel` steps. -/
def generate (m : RWG) (us : ℕ → ℚ) (fuel : ℕ) : Option (List Sym) :=
  let m' := if m.finalized then m else finalize m
  genLoop m' us fuel (TERMINATOR, TERMINATOR, TERMINATOR) [] 0

/-- Modelled from the spec: the length-bounded generation loop of
`generate(rng, minLength, maxLength)` (spec section 4.3).  The
implementation of this overload is absent from the sources (only the test
suite calls it); the loop follows the spec's algorithm: draw a value each
iteration, select with `nextStep`, return on the terminator when the
output has reached `minLength` and otherwise discard the output and
restart, and return the output as-is when `maxLength > 0` and its length
reaches `maxLength`. -/
def genBoundedLoop (m : RWG) (us : ℕ → ℚ) (minLength maxLength : ℕ) :
    ℕ → State → List Sym → ℕ → Option (List Sym)
  | 0, _, _, _ => none
  | fuel + 1, s, acc, i =>
      let c := next m s (us i)
      if c = TERMINATOR then
        if minLength ≤ acc.length then some acc
        else genBoundedLoop m us minLength maxLength fuel
          (TERMINATOR, TERMINATOR, TERMINATOR) [] (i + 1)
      else
        let acc' := acc ++ [c]
        if 0 < maxLength ∧ acc'.length = maxLength then some acc'
        else genBoundedLoop m us minLength maxLength fuel (shift s c) acc' (i + 1)

/-- Modelled from the spec: `generate(rng, minLength = 1, maxLength = 0)`
with `maxLength = 0` meaning unbounded (spec section 4.3); auto-finalizes
an unfinalized model and runs the bounded loop from the all-terminator
context. -/
def generateBounded (m : RWG) (minLength maxLength : ℕ) (us : ℕ → ℚ) (fuel : ℕ) :
    Option (List Sym) :=
  let m' := if m.finalized then m else finalize m
  genBoundedLoop m' us minLength maxLength fuel (TERMINATOR, TERMINATOR, TERMINATOR) [] 0

/-!
The historical dense-table variant: `RandomWordGeneratorFactory`
(Factory.cpp).  `ALPHABET_SIZE = 26`; indices `0..25` are the letters
`a..z` and index `26` is the terminator (`finalize` writes the fallback
probability `1.0` at index `ALPHABET_SIZE`, the terminator's slot).
-/

/-- Index of a cell of the dense `(A+1)^4` tables of the factory. -/
abbrev FIdx := Fin 27 × Fin 27 × Fin 27 × Fin 27

/-- The terminator's index in the dense tables (`ALPHABET_SIZE`). -/
def FTERM : Fin 27 := 26

/-- The fixed factory alphabet `"abcdefghijklmnopqrstuvwxyz"` as character
codes; `ALPHABET.find(c)` is the index of `c` in this list. -/
def F_ALPHABET : List ℕ := (List.range 26).map (fun i => 97 + i)

/-- `class RandomWordGeneratorFactory`: the dense frequency and CDF tables
and the finalized flag.  The constructor zeroes the frequency table with
`memset`; the CDF table is uninitialized in C++ and is modelled as zero. -/
structure Factory where
  frequencies : FIdx → ℚ
  cdfs : FIdx → ℚ
  finalized : Bool

/-- The factory constructor: zeroed tables, not finalized. -/
def mkFactory : Factory :=
  { frequencies := fun _ => 0, cdfs := fun _ => 0, finalized := false }

/-- Index of a character in the factory alphabet, as a `Fin 27` (characters
are validated before this is used, so the fallback value is irrelevant). -/
def fIndexOf (c : ℕ) : Fin 27 :=
  if h : F_ALPHABET.indexOf c < 27 then ⟨F_ALPHABET.indexOf c, h⟩ else FTERM

/-- The training loop of the factory's `analyzeWord`: bump
`frequencies_[c0][c1][c2][c]` for each character while rolling the three
context indices. -/
def fAnalyzeLoop (w : ℚ) :
    (FIdx → ℚ) → Fin 27 × Fin 27 × Fin 27 → List ℕ → (FIdx → ℚ) × (Fin 27 × Fin 27 × Fin 27)
  | f, ctx, [] => (f, ctx)
  | f, (c0, c1, c2), ch :: rest =>
      let c := fIndexOf ch
      let idx : FIdx := (c0, c1, c2, c)
      fAnalyzeLoop w (Function.update f idx (f idx + w)) (c1, c2, c) rest

/-- `RandomWordGeneratorFactory::analyzeWord(word, factor)`: rejects an
empty word or any character outside the alphabet; otherwise bumps every
rolling-context transition and the final transition into the terminator,
and clears the finalized flag. -/
def fAnalyzeWord (F : Factory) (word : List ℕ) (factor : ℚ) : Bool × Factory :=
  if word = [] then (false, F)
  else if ¬ word.all (fun c => F_ALPHABET.contains c) then (false, F)
  else
    let r := fAnalyzeLoop factor F.frequencies (FTERM, FTERM, FTERM) word
    let idx : FIdx := (r.2.1, r.2.2.1, r.2.2.2, FTERM)
    (true, { F with frequencies := Function.update r.1 idx (r.1 idx + factor),
                    finalized := false })

/-- Sum of one row of the dense frequency table
(`std::accumulate(dist, dist + ALPHABET_SIZE + 1, 0.0f)`). -/
def fRowSum (f : FIdx → ℚ) (i j k : Fin 27) : ℚ :=
  ∑ t : Fin 27, f (i, j, k, t)

/-- Cumulative sum of one row of the dense frequency table up to and
including index `m`. -/
def fCumul (f : FIdx → ℚ) (i j k : Fin 27) (m : Fin 27) : ℚ :=
  ∑ t ∈ Finset.univ.filter (fun t : Fin 27 => t ≤ m), f (i, j, k, t)

/-- `RandomWordGeneratorFactory::finalize()`: each CDF cell is written once
with a value depending only on its row, so the nested loops are embedded
pointwise: for a row with positive sum the cell holds the normalized
cumulative sum, and otherwise the terminator-only fallback (`0`
everywhere, `1` at the terminator).  The frequency table is not modified
and the factory is marked finalized. -/
def fFinalize (F : Factory) : Factory :=
  { F with
    cdfs := fun idx =>
      let s := fRowSum F.frequencies idx.1 idx.2.1 idx.2.2.1
      if 0 < s then fCumul F.frequencies idx.1 idx.2.1 idx.2.2.1 idx.2.2.2 / s
      else if idx.2.2.2 = FTERM then 1 else 0,
    finalized := true }

/-- Lexicographic enumeration of all dense-table indices, in the iteration
order of the factory's stream operators. -/
def enumFIdx : List FIdx :=
  (List.finRange 27).flatMap fun i =>
    (List.finRange 27).flatMap fun j =>
      (List.finRange 27).flatMap fun k =>
        (List.finRange 27).map fun m => (i, j, k, m)

/-- `operator<<(ostream, factory)`: writes every cell of the frequency
table (not the CDF table) in lexicographic order, each cell followed by a
separator. -/
def fWrite (F : Factory) : List ℚ := enumFIdx.map F.frequencies

/-- An input text stream of float tokens: `none` is a token that fails to
parse as a float.  Every token is assumed to be followed by a separator
(as the streams produced by `operator<<` are), so the eof bit is set only
when extraction runs past the last token. -/
structure IStream where
  tokens : List (Option ℚ)
  fail : Bool
  eofbit : Bool

/-- A stream holding the given already-parsed values. -/
def streamOfVals (vals : List ℚ) : IStream :=
  { tokens := vals.map some, fail := false, eofbit := false }

/-- `s >> p` for a `float p`: a failed stream extracts nothing; extraction
at the end of the stream sets the fail and eof bits; a token that fails to
parse sets the fail bit and stores `0` (the C++11 behavior). -/
def extractFloat (s : IStream) : IStream × ℚ :=
  if s.fail then (s, 0)
  else
    match s.tokens with
    | [] => ({ s with fail := true, eofbit := true }, 0)
    | none :: rest => ({ s with tokens := rest, fail := true }, 0)
    | some q :: rest => ({ s with tokens := rest }, q)

/-- The extraction loop of `operator>>(istream, factory)` over a list of
cell indices: extracts one float per cell and stores it in the CDF table,
returning early (with the values stored so far still in place) when the
eof bit is set or the value lies outside `[0, 1]`. -/
def fReadLoop : IStream → Factory → List FIdx → IStream × Factory
  | s, F, [] => (s, F)
  | s, F, idx :: rest =>
      let r := extractFloat s
      if r.1.eofbit ∨ r.2 < 0 ∨ 1 < r.2 then (r.1, F)
      else fReadLoop r.1 { F with cdfs := Function.update F.cdfs idx r.2 } rest

/-- `operator>>(istream, factory)`: reads every cell of the CDF table in
lexicographic order.  The finalized flag and the frequency table are never
touched. -/
def fRead (s : IStream) (F : Factory) : IStream × Factory :=
  fReadLoop s F enumFIdx

/-- Modelled from the spec: the dense-row upper-bound selection of the
historical generator consuming the factory's tables (spec section 4.3
step 2; that generator's source is absent from the repository): the first
index whose cumulative probability exceeds the drawn value, the last
index being the fallback. -/
def selectFrom (row : Fin 27 → ℚ) (u : ℚ) : List (Fin 27) → Fin 27
  | [] => FTERM
  | t :: rest => if u < row t then t else selectFrom row u rest

/-- Modelled from the spec: selection over a full dense CDF row. -/
def selectDense (row : Fin 27 → ℚ) (u : ℚ) : Fin 27 :=
  selectFrom row u (List.finRange 27)

/-!
Specification-side vocabulary used to state the claims, and the concrete
models used by witnesses and counterexamples.
-/

/-- The accumulated weight recorded in a transition matrix for the
transition `(state, nextSymbol)`; absent entries are zero. -/
def freqAt (tm : TransMatrix) (s : State) (c : Sym) : ℚ := emGet (tmGet tm s) c

/-- The transition pairs of a word from a starting context: one pair
`(context, character)` per position with the context rolling, and the
final pair `(finalContext, TERMINATOR)`. -/
def transitionPairs : State → List Sym → List (State × Sym)
  | s, [] => [(s, TERMINATOR)]
  | s, c :: rest => (s, c) :: transitionPairs (shift s c) rest

/-- The maximal runs of characters satisfying `p` in a list, in order: each
run is non-empty, consists only of characters satisfying `p`, and is
bounded on each side by the list ends or characters failing `p`. -/
def maximalRuns (p : Sym → Bool) : List Sym → List (List Sym)
  | [] => []
  | c :: rest =>
      if p c then (c :: rest.takeWhile p) :: maximalRuns p (rest.dropWhile p)
      else maximalRuns p rest
termination_by l => l.length
decreasing_by
  · simp only [List.length_cons]
    exact Nat.lt_succ_of_le ((List.dropWhile_suffix _).length_le)
  · simp

/-- Generator states reachable from a freshly constructed model by training
calls whose weights are strictly positive. -/
inductive ReachablePos : RWG → Prop
  | init (alphabet : List Sym) : ReachablePos (mkRWG alphabet)
  | word (m : RWG) (wd : List Sym) (w : ℚ) : ReachablePos m → 0 < w →
      ReachablePos (analyzeWord m wd w).2
  | text (m : RWG) (text : List Sym) (w : ℚ) : ReachablePos m → 0 < w →
      ReachablePos (analyzeText m text w).2

/-- A default-alphabet generator trained on the word `"a"` with weight 1. -/
def trainedA : RWG := (analyzeWord (mkRWG defaultAlphabet) [97] 1).2

/-- A default-alphabet generator trained on the word `"a"` with weight 0. -/
def trainedAZero : RWG := (analyzeWord (mkRWG defaultAlphabet) [97] 0).2

/-- A default-alphabet generator trained on `"a"` with weight 1 and on
`"b"` with weight -1. -/
def trainedANegB : RWG := (analyzeWord trainedA [98] (-1)).2

/-- A factory trained on the word `"a"` with weight 1 and finalized. -/
def factoryA : Factory := fFinalize (fAnalyzeWord mkFactory [97] 1).2

/-!
General lemmas about the embedded operations.
-/

/-- `finalize` marks every model finalized. -/
theorem finalize_finalized (m : RWG) : (finalize m).finalized = true := by
  unfold finalize
  by_cases h : m.finalized = true <;> simp [h]

/-- `finalize` is the identity on an already finalized model. -/
theorem finalize_of_finalized (m : RWG) (h : m.finalized = true) : finalize m = m := by
  unfold finalize
  simp [h]

/-- `nextStep` depends on the model only through its CDF table. -/
theorem nextStep_congr (m₁ m₂ : RWG) (h : m₁.cdfs = m₂.cdfs) (s : State) (u : ℚ) :
    nextStep m₁ s u = nextStep m₂ s u := by
  unfold nextStep
  rw [h]

/-- The generation loop depends on the model only through its CDF table and
on the entropy stream only through its values. -/
theorem genLoop_congr (m₁ m₂ : RWG) (us₁ us₂ : ℕ → ℚ) (hc : m₁.cdfs = m₂.cdfs)
    (hus : ∀ i, us₁ i = us₂ i) :
    ∀ (fuel : ℕ) (s : State) (acc : List Sym) (i : ℕ),
      genLoop m₁ us₁ fuel s acc i = genLoop m₂ us₂ fuel s acc i := by
  intro fuel
  induction fuel with
  | zero => intro s acc i; rfl
  | succ n ih =>
      intro s acc i
      simp only [genLoop]
      rw [hus i, nextStep_congr m₁ m₂ hc]
      split
      · rfl
      · exact ih _ _ _

/-- A scan of `selectFrom` in which every selectable index is the
terminator selects the terminator. -/
theorem selectFrom_eq_term (row : Fin 27 → ℚ) (u : ℚ) (l : List (Fin 27))
    (h : ∀ t ∈ l, u < row t → t = FTERM) : selectFrom row u l = FTERM := by
  induction l with
  | nil => rfl
  | cons t rest ih =>
      simp only [selectFrom]
      by_cases hu : u < row t
      · simpa [hu] using h t (by simp) hu
      · simpa [hu] using ih (fun d hd => h d (by simp [hd]))

/-!
Claim theorems.
-/

/-- C5: for every word and weight, `analyzeWord(word, weight)` returns
false and leaves the model state completely unchanged whenever the word is
empty, the word contains a character outside the alphabet, or the model is
already finalized. -/
theorem analyzeWord_rejects (m : RWG) (word : List Sym) (w : ℚ)
    (h : word = [] ∨ m.finalized = true ∨ ∃ c ∈ word, inAlphabet m.alphabet c = false) :
    analyzeWord m word w = (false, m) := by
  by_cases h₁ : word = [] ∨ m.finalized = true
  · simp only [analyzeWord]
    rw [if_pos h₁]
  · rcases h with h | h | ⟨c, hc, hca⟩
    · exact absurd (Or.inl h) h₁
    · exact absurd (Or.inr h) h₁
    · have hall : word.all (inAlphabet m.alphabet) = false := by
        simp only [List.all_eq_false]
        exact ⟨c, hc, by simp [hca]⟩
      simp only [analyzeWord]
      rw [if_neg h₁, if_pos (by simp [hall])]

/-- Witness for C5: the empty word is rejected without mutation. -/
theorem analyzeWord_rejects_witness :
    analyzeWord (mkRWG defaultAlphabet) [] 1 = (false, mkRWG defaultAlphabet) :=
  analyzeWord_rejects (mkRWG defaultAlphabet) [] 1 (Or.inl rfl)

/-- C9: `finalize()` is finalizing and idempotent: it marks the model
finalized, it is a no-op on an already finalized model, and calling it
`n + 1` times yields exactly the state of calling it once. -/
theorem finalize_idempotent (m : RWG) (n : ℕ) :
    (finalize m).finalized = true ∧ finalize^[n + 1] m = finalize m ∧
      (m.finalized = true → finalize m = m) := by
  refine ⟨finalize_finalized m, ?_, finalize_of_finalized m⟩
  induction n with
  | zero => simp
  | succ k ih =>
      rw [Function.iterate_succ_apply', ih,
        finalize_of_finalized _ (finalize_finalized m)]

/-- Witness for C9: a second `finalize` call on a finalized empty model is
a no-op. -/
theorem finalize_idempotent_witness :
    finalize (finalize (mkRWG [])) = finalize (mkRWG []) ∧
      (finalize (mkRWG [])).finalized = true :=
  ⟨(finalize_idempotent (finalize (mkRWG [])) 0).2.2
      (finalize_idempotent (mkRWG []) 0).1,
    (finalize_idempotent (mkRWG []) 0).1⟩

/-- C8: for finalized models, `generate` is a pure function of the model's
CDF table and the values produced by the entropy stream: two calls on
models with equal CDF tables and pointwise-equal streams return identical
results. -/
theorem generate_deterministic (m₁ m₂ : RWG) (us₁ us₂ : ℕ → ℚ) (fuel : ℕ)
    (h₁ : m₁.finalized = true) (h₂ : m₂.finalized = true)
    (hc : m₁.cdfs = m₂.cdfs) (hus : ∀ i, us₁ i = us₂ i) :
    generate m₁ us₁ fuel = generate m₂ us₂ fuel := by
  unfold generate
  rw [if_pos h₁, if_pos h₂]
  exact genLoop_congr m₁ m₂ us₁ us₂ hc hus fuel _ _ _

/-- Witness for C8: a finalized model and a copy of it with a different
transition matrix but the same CDF table generate identically on the
all-zero stream. -/
theorem generate_deterministic_witness :
    generate (finalize trainedA) (fun _ => 0) 5 =
      generate { finalize trainedA with transitionMatrix := [] } (fun _ => 0) 5 :=
  generate_deterministic (finalize trainedA)
    { finalize trainedA with transitionMatrix := [] } (fun _ => 0) (fun _ => 0) 5
    (finalize_finalized trainedA) (finalize_finalized trainedA) rfl (fun _ => rfl)

/-- Counterexample to C2: on the modern generator, a context whose row has
weight sum 0 (the word `"a"` trained with weight 0) is finalized to the
unnormalized row `[(a, 0)]`, not the terminator-only fallback row, and
sampling from that context emits `a`, not the terminator. -/
theorem finalize_zero_row_not_terminator_only :
    cdfGet (finalize trainedAZero).cdfs (TERMINATOR, TERMINATOR, TERMINATOR) =
        some [⟨97, 0⟩] ∧
      next (finalize trainedAZero) (TERMINATOR, TERMINATOR, TERMINATOR) (1/2) = 97 ∧
      (97 : Sym) ≠ TERMINATOR := by
  refine ⟨?_, ?_, by norm_num [TERMINATOR]⟩ <;>
    norm_num [-Prod.mk_zero_zero, next, nextStep, finalize, trainedAZero, analyzeWord,
      analyzeLoop, mkRWG, defaultAlphabet, inAlphabet, tmBump, emBump, shift,
      TERMINATOR, cdfScan, finalizeRow, finalizeStep, cdfPut, cdfGet, List.range_succ,
      List.find?, List.getLastD]

/-- C2 (amended): on the factory, every context whose frequency row has
weight sum at most 0 is finalized to the terminator-only fallback CDF row
(probability 0 at every alphabet index and 1 at the terminator index), and
upper-bound selection over that row emits the terminator for every drawn
value in `[0, 1)`. -/
theorem fFinalize_fallback (F : Factory) (i j k : Fin 27)
    (h : fRowSum F.frequencies i j k ≤ 0) :
    (∀ m : Fin 27, (fFinalize F).cdfs (i, j, k, m) = if m = FTERM then 1 else 0) ∧
      ∀ u : ℚ, 0 ≤ u → u < 1 →
        selectDense (fun m => (fFinalize F).cdfs (i, j, k, m)) u = FTERM := by
  have hrow : ∀ m : Fin 27, (fFinalize F).cdfs (i, j, k, m) = if m = FTERM then 1 else 0 := by
    intro m
    simp only [fFinalize]
    rw [if_neg (by exact not_lt.2 h)]
  refine ⟨hrow, fun u hu0 hu1 => ?_⟩
  refine selectFrom_eq_term _ u _ (fun t _ hlt => ?_)
  by_contra ht
  rw [hrow t, if_neg ht] at hlt
  exact absurd (lt_of_le_of_lt hu0 hlt) (lt_irrefl 0)

/-- Witness for C2 (amended): the untrained factory's initial context has
row sum 0 and is finalized to the fallback row selecting the terminator. -/
theorem fFinalize_fallback_witness :
    fRowSum mkFactory.frequencies 0 0 0 ≤ 0 ∧
      (fFinalize mkFactory).cdfs (0, 0, 0, FTERM) = 1 ∧
      selectDense (fun m => (fFinalize mkFactory).cdfs (0, 0, 0, m)) (1/2) = FTERM := by
  have h : fRowSum mkFactory.frequencies 0 0 0 ≤ 0 := by
    simp [fRowSum, mkFactory]
  have r := fFinalize_fallback mkFactory 0 0 0 h
  exact ⟨h, by rw [r.1 FTERM, if_pos rfl], r.2 (1/2) (by norm_num) (by norm_num)⟩

/-- C3: every sequence returned by the length-bounded generation (modelled
from the spec, section 4.3) with `minLength ≤ maxLength` and
`maxLength > 0` has length between `minLength` and `maxLength`. -/
theorem generateBounded_length (m : RWG) (us : ℕ → ℚ) (fuel minLength maxLength : ℕ)
    (w : List Sym) (hmm : minLength ≤ maxLength) (hmax : 0 < maxLength)
    (hw : generateBounded m minLength maxLength us fuel = some w) :
    minLength ≤ w.length ∧ w.length ≤ maxLength := by
  have main : ∀ (M : RWG) (f : ℕ) (s : State) (acc : List Sym) (i : ℕ),
      acc.length < maxLength →
      genBoundedLoop M us minLength maxLength f s acc i = some w →
      minLength ≤ w.length ∧ w.length ≤ maxLength := by
    intro M f
    induction f with
    | zero => intro s acc i _ hr; exact absurd hr (by simp [genBoundedLoop])
    | succ n ih =>
        intro s acc i hacc hr
        simp only [genBoundedLoop] at hr
        by_cases hterm : next M s (us i) = TERMINATOR
        · rw [if_pos hterm] at hr
          by_cases hmin : minLength ≤ acc.length
          · rw [if_pos hmin] at hr
            cases hr
            exact ⟨hmin, le_of_lt hacc⟩
          · rw [if_neg hmin] at hr
            exact ih _ _ _ (by simpa using hmax) hr
        · rw [if_neg hterm] at hr
          by_cases hfull : 0 < maxLength ∧ (acc ++ [next M s (us i)]).length = maxLength
          · rw [if_pos hfull] at hr
            cases hr
            exact ⟨hfull.2 ▸ hmm, le_of_eq hfull.2⟩
          · rw [if_neg hfull] at hr
            refine ih _ _ _ ?_ hr
            rcases lt_or_eq_of_le (Nat.succ_le_of_lt hacc) with hlt | heq
            · simpa using hlt
            · exact absurd ⟨hmax, by simpa using heq⟩ hfull
  exact main _ fuel _ [] 0 (by simpa using hmax) hw

/-- The finalization of `trainedA`, written out. -/
theorem finalize_trainedA_eval :
    finalize trainedA =
      { alphabet := defaultAlphabet,
        transitionMatrix := [((0, 0, 0), [(97, 1)]), ((0, 0, 97), [(0, 1)])],
        cdfs := [((0, 0, 0), [⟨97, 1⟩]), ((0, 0, 97), [⟨0, 1⟩])],
        finalized := true } := by
  norm_num [-Prod.mk_zero_zero, finalize, trainedA, analyzeWord, analyzeLoop, mkRWG,
    defaultAlphabet, inAlphabet, tmBump, emBump, shift, TERMINATOR, cdfScan,
    finalizeRow, finalizeStep, cdfPut, List.range_succ]

/-- Evaluation of the bounded generation on `trainedA` with the all-zero
stream: the single word `"a"` is produced. -/
theorem generateBounded_trainedA_eval :
    generateBounded trainedA 1 3 (fun _ => 0) 10 = some [97] := by
  have hf : trainedA.finalized = false := by
    norm_num [trainedA, analyzeWord, mkRWG, defaultAlphabet, inAlphabet,
      List.range_succ]
  simp only [generateBounded, hf, if_neg, Bool.false_eq_true, finalize_trainedA_eval]
  norm_num [-Prod.mk_zero_zero, genBoundedLoop, next, nextStep, cdfGet, shift,
    TERMINATOR, List.find?, List.getLastD]

/-- Witness for C3: on the model trained with `"a"`, the bounded generation
with `minLength = 1`, `maxLength = 3` returns `"a"`, of length within the
bounds. -/
theorem generateBounded_length_witness :
    1 ≤ ([97] : List Sym).length ∧ ([97] : List Sym).length ≤ 3 :=
  generateBounded_length trainedA (fun _ => 0) 10 1 3 [97] (by norm_num) (by norm_num)
    generateBounded_trainedA_eval

/-- Bumping a row changes exactly the bumped key, by exactly the weight. -/
theorem emGet_emBump (row : EdgeMap) (c d : Sym) (w : ℚ) :
    emGet (emBump row c w) d = emGet row d + if c = d then w else 0 := by
  induction row with
  | nil =>
      by_cases h : c = d
      · simp [emBump, emGet, h]
      · simp [emBump, emGet, h]
  | cons kv rest ih =>
      obtain ⟨k, v⟩ := kv
      by_cases hk : k = c
      · subst hk
        by_cases hd : k = d
        · simp [emBump, emGet, hd]
        · simp [emBump, emGet, hd]
      · by_cases hd : k = d
        · have hcd : ¬ c = d := fun h => hk (h ▸ hd)
          have hdc : ¬ d = c := fun h => hk (hd.trans h)
          simp [emBump, emGet, hk, hd, hcd, hdc]
        · simp [emBump, emGet, hk, hd, ih]

/-- Bumping the matrix changes exactly the bumped state's row. -/
theorem tmGet_tmBump (tm : TransMatrix) (s t : State) (c : Sym) (w : ℚ) :
    tmGet (tmBump tm s c w) t =
      if s = t then emBump (tmGet tm s) c w else tmGet tm t := by
  induction tm with
  | nil =>
      by_cases h : s = t
      · simp [tmBump, tmGet, h, emBump]
      · simp [tmBump, tmGet, h]
  | cons kv rest ih =>
      obtain ⟨k, row⟩ := kv
      by_cases hk : k = s
      · subst hk
        by_cases ht : k = t
        · simp [tmBump, tmGet, ht]
        · simp [tmBump, tmGet, ht]
      · by_cases ht : k = t
        · have hst : ¬ s = t := fun h => hk (h ▸ ht)
          have hts : ¬ t = s := fun h => hk (ht.trans h)
          simp [tmBump, tmGet, hk, ht, hst, hts]
        · simp [tmBump, tmGet, hk, ht, ih]

/-- Bumping the matrix changes exactly the bumped transition's weight. -/
theorem freqAt_tmBump (tm : TransMatrix) (s t : State) (c d : Sym) (w : ℚ) :
    freqAt (tmBump tm s c w) t d =
      freqAt tm t d + if (s, c) = (t, d) then w else 0 := by
  unfold freqAt
  rw [tmGet_tmBump]
  by_cases hs : s = t
  · subst hs
    rw [if_pos rfl, emGet_emBump]
    by_cases hc : c = d
    · rw [if_pos hc, if_pos (by rw [hc])]
    · rw [if_neg hc, if_neg (fun h => hc (Prod.ext_iff.1 h).2)]
  · rw [if_neg hs, if_neg (fun h => hs (Prod.ext_iff.1 h).1)]
    ring

/-- The whole of `analyzeWord`'s training pass (the rolling loop followed
by the terminator bump) adds, at each transition, the weight times the
number of occurrences of that transition among the word's transition
pairs. -/
theorem freqAt_analyzePass (w : ℚ) (word : List Sym) :
    ∀ (tm : TransMatrix) (s : State) (t : State) (d : Sym),
      freqAt (tmBump (analyzeLoop w tm s word).1 (analyzeLoop w tm s word).2
          TERMINATOR w) t d
        = freqAt tm t d + w * ((transitionPairs s word).count (t, d) : ℚ) := by
  induction word with
  | nil =>
      intro tm s t d
      simp only [analyzeLoop, transitionPairs]
      rw [freqAt_tmBump]
      by_cases h : (s, TERMINATOR) = (t, d)
      · have h1 : List.count (t, d) [(s, TERMINATOR)] = 1 := by simp [h]
        rw [h1, if_pos h]
        push_cast
        ring
      · have h1 : List.count (t, d) [(s, TERMINATOR)] = 0 := by
          rw [List.count_cons, List.count_nil]
          simp [beq_iff_eq, h]
        rw [h1, if_neg h]
        push_cast
        ring
  | cons c rest ih =>
      intro tm s t d
      simp only [analyzeLoop, transitionPairs]
      rw [ih (tmBump tm s c w) (shift s c) t d, freqAt_tmBump]
      by_cases h : (s, c) = (t, d)
      · have h1 : List.count (t, d) ((s, c) :: transitionPairs (shift s c) rest)
            = List.count (t, d) (transitionPairs (shift s c) rest) + 1 := by
          rw [List.count_cons]
          simp [h]
        rw [h1, if_pos h]
        push_cast
        ring
      · have h1 : List.count (t, d) ((s, c) :: transitionPairs (shift s c) rest)
            = List.count (t, d) (transitionPairs (shift s c) rest) := by
          rw [List.count_cons]
          simp [h]
        rw [h1, if_neg h]
        ring

/-- C6: on an unfinalized model, for every non-empty word of alphabet
characters, `analyzeWord` succeeds, touches neither the CDF table, the
finalized flag nor the alphabet, and adds to every transition `(t, d)`
exactly `weight` times the number of occurrences of `(t, d)` among the
word's transition pairs (the rolling terminator-seeded contexts paired
with each character, plus the final context paired with the terminator). -/
theorem analyzeWord_trains (m : RWG) (word : List Sym) (w : ℚ)
    (hne : word ≠ []) (hal : word.all (inAlphabet m.alphabet) = true)
    (hfin : m.finalized = false) :
    (analyzeWord m word w).1 = true ∧
      (analyzeWord m word w).2.cdfs = m.cdfs ∧
      (analyzeWord m word w).2.finalized = m.finalized ∧
      (analyzeWord m word w).2.alphabet = m.alphabet ∧
      ∀ (t : State) (d : Sym),
        freqAt (analyzeWord m word w).2.transitionMatrix t d
          = freqAt m.transitionMatrix t d
            + w * ((transitionPairs (TERMINATOR, TERMINATOR, TERMINATOR) word).count
                (t, d) : ℚ) := by
  have hcond : ¬ (word = [] ∨ m.finalized = true) := by simp [hne, hfin]
  simp only [analyzeWord]
  rw [if_neg hcond, if_neg (by simp [hal])]
  exact ⟨rfl, rfl, rfl, rfl, fun t d => freqAt_analyzePass w word m.transitionMatrix _ t d⟩

/-- Witness for C6: training `"ab"` with weight 2 succeeds and adds
`2 * 1` to the transition from context `(0, 0, a)` to `b`. -/
theorem analyzeWord_trains_witness :
    (analyzeWord (mkRWG defaultAlphabet) [97, 98] 2).1 = true ∧
      freqAt (analyzeWord (mkRWG defaultAlphabet) [97, 98] 2).2.transitionMatrix
          (0, 0, 97) 98
        = freqAt (mkRWG defaultAlphabet).transitionMatrix (0, 0, 97) 98
          + 2 * ((transitionPairs (TERMINATOR, TERMINATOR, TERMINATOR)
              [97, 98]).count ((0, 0, 97), 98) : ℚ) :=
  ⟨(analyzeWord_trains (mkRWG defaultAlphabet) [97, 98] 2 (by simp)
      (by simp [mkRWG, inAlphabet, defaultAlphabet, List.range_succ]) rfl).1,
    (analyzeWord_trains (mkRWG defaultAlphabet) [97, 98] 2 (by simp)
      (by simp [mkRWG, inAlphabet, defaultAlphabet, List.range_succ]) rfl).2.2.2.2
      (0, 0, 97) 98⟩

/-- The scanning loop of `analyzeText`, entered at the first word start,
analyzes exactly the maximal alphabet runs of the text, in order. -/
theorem analyzeTextLoop_runs (al : List Sym) (w : ℚ) :
    ∀ (n : ℕ) (text : List Sym), text.length ≤ n → ∀ (m : RWG),
      analyzeTextLoop al w m (text.dropWhile (fun d => ¬ inAlphabet al d)) =
        (maximalRuns (inAlphabet al) text).foldl
          (fun mm wd => (analyzeWord mm wd w).2) m := by
  intro n
  induction n with
  | zero =>
      intro text h m
      have ht : text = [] := List.eq_nil_of_length_eq_zero (Nat.le_zero.1 h)
      subst ht
      simp [analyzeTextLoop, maximalRuns]
  | succ k ih =>
      intro text h m
      match text with
      | [] => simp [analyzeTextLoop, maximalRuns]
      | c :: rest =>
          have hrest : rest.length ≤ k := Nat.le_of_succ_le_succ h
          by_cases hc : inAlphabet al c = true
          · rw [List.dropWhile_cons_of_neg (by simp [hc])]
            simp only [analyzeTextLoop]
            rw [maximalRuns]
            rw [if_pos hc]
            rw [List.foldl_cons]
            exact ih (rest.dropWhile (inAlphabet al))
              (le_trans ((List.dropWhile_suffix _).length_le) hrest) _
          · rw [List.dropWhile_cons_of_pos (by simp [hc])]
            rw [maximalRuns]
            rw [if_neg hc]
            exact ih rest hrest m

/-- C10: `analyzeText` succeeds exactly when the text is non-empty, the
model is unfinalized and the text contains at least one alphabet
character (the stricter variant: no extractable word is a failure); on
success the resulting model is the fold of `analyzeWord` with the given
weight over exactly the maximal alphabet runs of the text. -/
theorem analyzeText_splits (m : RWG) (text : List Sym) (w : ℚ) :
    ((analyzeText m text w).1 = true ↔
      text ≠ [] ∧ m.finalized = false ∧ ∃ c ∈ text, inAlphabet m.alphabet c = true) ∧
    ((analyzeText m text w).1 = true →
      (analyzeText m text w).2 =
        (maximalRuns (inAlphabet m.alphabet) text).foldl
          (fun mm wd => (analyzeWord mm wd w).2) m) := by
  by_cases h₁ : text = [] ∨ m.finalized = true
  · have hv : analyzeText m text w = (false, m) := by
      simp only [analyzeText]
      rw [if_pos h₁]
    rw [hv]
    refine ⟨?_, fun hr => absurd hr (by simp)⟩
    simp only [Bool.false_eq_true, false_iff]
    rintro ⟨ha, hb, -⟩
    rcases h₁ with h | h
    · exact ha h
    · rw [hb] at h
      exact Bool.false_ne_true h
  · by_cases h₂ : text.dropWhile (fun d => ¬ inAlphabet m.alphabet d) = []
    · have hv : analyzeText m text w = (false, m) := by
        simp only [analyzeText]
        rw [if_neg h₁, if_pos h₂]
      rw [hv]
      refine ⟨?_, fun hr => absurd hr (by simp)⟩
      simp only [Bool.false_eq_true, false_iff]
      rintro ⟨-, -, c, hc, hca⟩
      have hdrop := List.dropWhile_eq_nil_iff.1 h₂ c hc
      simp only [decide_eq_true_eq] at hdrop
      exact hdrop hca
    · have hv : analyzeText m text w =
          (true, analyzeTextLoop m.alphabet w m
            (text.dropWhile (fun d => ¬ inAlphabet m.alphabet d))) := by
        simp only [analyzeText]
        rw [if_neg h₁, if_neg h₂]
      rw [hv]
      push_neg at h₁
      constructor
      · simp only [true_iff]
        refine ⟨h₁.1, Bool.not_eq_true _ ▸ h₁.2, ?_⟩
        by_contra hall
        push_neg at hall
        refine h₂ (List.dropWhile_eq_nil_iff.2 fun x hx => ?_)
        simp only [decide_eq_true_eq]
        intro hmem
        exact hall x hx hmem
      · intro _
        exact analyzeTextLoop_runs m.alphabet w text.length text le_rfl m

/-- Witness for C10: on the text `"ab!c"` the call succeeds and the
resulting model is the fold of `analyzeWord` over the maximal runs. -/
theorem analyzeText_splits_witness :
    (analyzeText (mkRWG defaultAlphabet) [97, 98, 33, 99] 1).1 = true ∧
      (analyzeText (mkRWG defaultAlphabet) [97, 98, 33, 99] 1).2 =
        (maximalRuns (inAlphabet (mkRWG defaultAlphabet).alphabet)
            [97, 98, 33, 99]).foldl
          (fun mm wd => (analyzeWord mm wd 1).2) (mkRWG defaultAlphabet) :=
  ⟨(analyzeText_splits (mkRWG defaultAlphabet) [97, 98, 33, 99] 1).1.2
      (by refine ⟨by simp, rfl, 97, by simp, ?_⟩
          simp [mkRWG, inAlphabet, defaultAlphabet, List.range_succ]),
    (analyzeText_splits (mkRWG defaultAlphabet) [97, 98, 33, 99] 1).2
      ((analyzeText_splits (mkRWG defaultAlphabet) [97, 98, 33, 99] 1).1.2
        (by refine ⟨by simp, rfl, 97, by simp, ?_⟩
            simp [mkRWG, inAlphabet, defaultAlphabet, List.range_succ]))⟩

/-!
Invariants of positively trained models, used for the CDF validity
theorem.
-/

/-- A training-time frequency row is well-formed when it is non-empty and
every recorded weight is strictly positive. -/
def RowPos (row : EdgeMap) : Prop := row ≠ [] ∧ ∀ kv ∈ row, 0 < kv.2

/-- Invariant of models reachable by positively weighted training:
distinct row keys, positive non-empty rows, no CDF rows, not finalized. -/
def ModelInv (m : RWG) : Prop :=
  (m.transitionMatrix.map Prod.fst).Nodup ∧
    (∀ e ∈ m.transitionMatrix, RowPos e.2) ∧ m.cdfs = [] ∧ m.finalized = false

/-- Bumping by a positive weight keeps every row entry positive. -/
theorem emBump_pos (row : EdgeMap) (c : Sym) (w : ℚ)
    (hrow : ∀ kv ∈ row, 0 < kv.2) (hw : 0 < w) :
    ∀ kv ∈ emBump row c w, 0 < kv.2 := by
  induction row with
  | nil => simpa [emBump] using hw
  | cons kv rest ih =>
      obtain ⟨k, v⟩ := kv
      by_cases hk : k = c
      · simp only [emBump, if_pos hk]
        rintro ⟨k', v'⟩ h'
        rcases List.mem_cons.1 h' with h' | h'
        · have hv : 0 < v := hrow (k, v) (by simp)
          cases h'
          exact add_pos hv hw
        · exact hrow _ (List.mem_cons_of_mem _ h')
      · simp only [emBump, if_neg hk]
        rintro ⟨k', v'⟩ h'
        rcases List.mem_cons.1 h' with h' | h'
        · cases h'
          exact hrow (k, v) (by simp)
        · exact ih (fun kv h => hrow kv (List.mem_cons_of_mem _ h)) _ h'

/-- A bumped row is never empty. -/
theorem emBump_ne_nil (row : EdgeMap) (c : Sym) (w : ℚ) : emBump row c w ≠ [] := by
  cases row with
  | nil => simp [emBump]
  | cons kv rest =>
      obtain ⟨k, v⟩ := kv
      by_cases hk : k = c <;> simp [emBump, hk]

/-- The keys of a bumped matrix are the old keys plus the bumped state. -/
theorem keys_tmBump (tm : TransMatrix) (s : State) (c : Sym) (w : ℚ) :
    ∀ x, x ∈ (tmBump tm s c w).map Prod.fst ↔ x ∈ tm.map Prod.fst ∨ x = s := by
  induction tm with
  | nil => intro x; simp [tmBump]
  | cons kv rest ih =>
      obtain ⟨k, row⟩ := kv
      intro x
      by_cases hk : k = s
      · subst hk
        have hb : tmBump ((k, row) :: rest) k c w = (k, emBump row c w) :: rest := by
          simp [tmBump]
        rw [hb]
        simp only [List.map_cons, List.mem_cons]
        constructor
        · rintro (h | h)
          · exact Or.inl (Or.inl h)
          · exact Or.inl (Or.inr h)
        · rintro ((h | h) | h)
          · exact Or.inl h
          · exact Or.inr h
          · exact Or.inl h
      · simp only [tmBump, if_neg hk, List.map_cons, List.mem_cons, ih x]
        tauto

/-- Bumping preserves distinctness of the matrix keys. -/
theorem nodup_tmBump (tm : TransMatrix) (s : State) (c : Sym) (w : ℚ)
    (h : (tm.map Prod.fst).Nodup) : ((tmBump tm s c w).map Prod.fst).Nodup := by
  induction tm with
  | nil => simp [tmBump]
  | cons kv rest ih =>
      obtain ⟨k, row⟩ := kv
      by_cases hk : k = s
      · simpa [tmBump, hk] using h
      · simp only [tmBump, if_neg hk, List.map_cons, List.nodup_cons] at h ⊢
        refine ⟨fun hmem => ?_, ih h.2⟩
        rcases (keys_tmBump rest s c w k).1 hmem with hmem | hmem
        · exact h.1 hmem
        · exact hk hmem

/-- Bumping by a positive weight preserves well-formedness of all rows. -/
theorem rows_tmBump (tm : TransMatrix) (s : State) (c : Sym) (w : ℚ)
    (h : ∀ e ∈ tm, RowPos e.2) (hw : 0 < w) :
    ∀ e ∈ tmBump tm s c w, RowPos e.2 := by
  induction tm with
  | nil =>
      simp only [tmBump]
      rintro e he
      rcases List.mem_singleton.1 he with rfl
      exact ⟨by simp, by simpa using hw⟩
  | cons kv rest ih =>
      obtain ⟨k, row⟩ := kv
      by_cases hk : k = s
      · simp only [tmBump, if_pos hk]
        rintro e he
        rcases List.mem_cons.1 he with rfl | he
        · exact ⟨emBump_ne_nil row c w,
            emBump_pos row c w (fun kv hkv => (h (k, row) (by simp)).2 kv hkv) hw⟩
        · exact h e (List.mem_cons_of_mem _ he)
      · simp only [tmBump, if_neg hk]
        rintro e he
        rcases List.mem_cons.1 he with rfl | he
        · exact h (k, row) (by simp)
        · exact ih (fun e' he' => h e' (List.mem_cons_of_mem _ he')) e he

/-- The training loop preserves key distinctness and row positivity. -/
theorem analyzeLoop_inv (w : ℚ) (hw : 0 < w) (word : List Sym) :
    ∀ (tm : TransMatrix) (s : State),
      (tm.map Prod.fst).Nodup → (∀ e ∈ tm, RowPos e.2) →
      ((analyzeLoop w tm s word).1.map Prod.fst).Nodup ∧
        ∀ e ∈ (analyzeLoop w tm s word).1, RowPos e.2 := by
  induction word with
  | nil => intro tm s h1 h2; exact ⟨h1, h2⟩
  | cons c rest ih =>
      intro tm s h1 h2
      exact ih (tmBump tm s c w) (shift s c) (nodup_tmBump tm s c w h1)
        (rows_tmBump tm s c w h2 hw)

/-- `analyzeWord` with a positive weight preserves the model invariant. -/
theorem ModelInv_analyzeWord (m : RWG) (word : List Sym) (w : ℚ)
    (h : ModelInv m) (hw : 0 < w) : ModelInv (analyzeWord m word w).2 := by
  by_cases h₁ : word = [] ∨ m.finalized = true
  · simp only [analyzeWord]
    rw [if_pos h₁]
    exact h
  · by_cases h₂ : word.all (inAlphabet m.alphabet) = true
    · simp only [analyzeWord]
      rw [if_neg h₁, if_neg (by simp [h₂])]
      obtain ⟨hn, hr⟩ := analyzeLoop_inv w hw word m.transitionMatrix
        (TERMINATOR, TERMINATOR, TERMINATOR) h.1 h.2.1
      exact ⟨nodup_tmBump _ _ _ _ hn, rows_tmBump _ _ _ _ hr hw, h.2.2.1, h.2.2.2⟩
    · simp only [analyzeWord]
      rw [if_neg h₁, if_pos (by simp [h₂])]
      exact h

/-- Folding `analyzeWord` with a positive weight over any list of words
preserves the model invariant. -/
theorem ModelInv_foldl (w : ℚ) (hw : 0 < w) (rs : List (List Sym)) :
    ∀ m : RWG, ModelInv m →
      ModelInv (rs.foldl (fun mm wd => (analyzeWord mm wd w).2) m) := by
  induction rs with
  | nil => intro m h; exact h
  | cons r rest ih =>
      intro m h
      exact ih _ (ModelInv_analyzeWord m r w h hw)

/-- `analyzeText` with a positive weight preserves the model invariant. -/
theorem ModelInv_analyzeText (m : RWG) (text : List Sym) (w : ℚ)
    (h : ModelInv m) (hw : 0 < w) : ModelInv (analyzeText m text w).2 := by
  by_cases h₁ : text = [] ∨ m.finalized = true
  · simp only [analyzeText]
    rw [if_pos h₁]
    exact h
  · by_cases h₂ : text.dropWhile (fun d => ¬ inAlphabet m.alphabet d) = []
    · simp only [analyzeText]
      rw [if_neg h₁, if_pos h₂]
      exact h
    · have hv : (analyzeText m text w).2 =
          analyzeTextLoop m.alphabet w m
            (text.dropWhile (fun d => ¬ inAlphabet m.alphabet d)) := by
        simp only [analyzeText]
        rw [if_neg h₁, if_neg h₂]
      rw [hv, analyzeTextLoop_runs m.alphabet w text.length text le_rfl m]
      exact ModelInv_foldl w hw _ m h

/-- Every model reachable by positively weighted training satisfies the
invariant. -/
theorem ReachablePos_ModelInv (m : RWG) (hm : ReachablePos m) : ModelInv m := by
  induction hm with
  | init al => exact ⟨by simp [mkRWG], by simp [mkRWG], rfl, rfl⟩
  | word m' wd w hr hw ih => exact ModelInv_analyzeWord m' wd w ih hw
  | text m' text w hr hw ih => exact ModelInv_analyzeText m' text w ih hw

/-!
Facts about the per-row CDF construction.
-/

/-- The running total of the scan is the initial value plus the row sum. -/
theorem cdfScan_snd (row : EdgeMap) :
    ∀ a : ℚ, (cdfScan row a).2 = a + (row.map Prod.snd).sum := by
  induction row with
  | nil => intro a; simp [cdfScan]
  | cons kv rest ih =>
      obtain ⟨c, p⟩ := kv
      intro a
      simp only [cdfScan, List.map_cons, List.sum_cons, ih (a + p)]
      ring

/-- The scan of a non-empty row is non-empty. -/
theorem cdfScan_ne_nil (row : EdgeMap) (a : ℚ) (h : row ≠ []) :
    (cdfScan row a).1 ≠ [] := by
  cases row with
  | nil => exact absurd rfl h
  | cons kv rest =>
      obtain ⟨c, p⟩ := kv
      simp [cdfScan]

/-- Every head of a scan is at least the initial value, for nonnegative
rows. -/
theorem cdfScan_head_ge (row : EdgeMap) (a : ℚ)
    (h : ∀ kv ∈ row, 0 ≤ kv.2) :
    ∀ e ∈ (cdfScan row a).1.head?, a ≤ e.p := by
  cases row with
  | nil => simp [cdfScan]
  | cons kv rest =>
      obtain ⟨c, p⟩ := kv
      simp only [cdfScan, List.head?_cons, Option.mem_def, Option.some.injEq]
      rintro e rfl
      have : 0 ≤ p := h (c, p) (by simp)
      simpa using this

/-- The partial sums of a nonnegative row are non-decreasing. -/
theorem cdfScan_chain (row : EdgeMap) :
    ∀ a : ℚ, (∀ kv ∈ row, 0 ≤ kv.2) →
      List.Chain' (fun x y => x.p ≤ y.p) (cdfScan row a).1 := by
  induction row with
  | nil => intro a _; simp [cdfScan]
  | cons kv rest ih =>
      obtain ⟨c, p⟩ := kv
      intro a h
      simp only [cdfScan]
      rw [List.chain'_cons']
      refine ⟨?_, ih (a + p) (fun kv hkv => h kv (List.mem_cons_of_mem _ hkv))⟩
      intro y hy
      exact cdfScan_head_ge rest (a + p)
        (fun kv hkv => h kv (List.mem_cons_of_mem _ hkv)) y hy

/-- The last partial sum of a non-empty row is the running total. -/
theorem cdfScan_getLast (row : EdgeMap) :
    ∀ (a : ℚ) (z : Edge), row ≠ [] →
      ((cdfScan row a).1.getLastD z).p = (cdfScan row a).2 := by
  induction row with
  | nil => intro a z h; exact absurd rfl h
  | cons kv rest ih =>
      obtain ⟨c, p⟩ := kv
      intro a z _
      by_cases hr : rest = []
      · subst hr
        simp [cdfScan]
      · simp only [cdfScan, List.getLastD_cons]
        exact ih (a + p) _ hr

/-- Scaling every probability of a non-empty edge list scales its last
probability. -/
theorem getLastD_scale (l : EdgeList) :
    ∀ (q : ℚ) (z₁ z₂ : Edge), l ≠ [] →
      (((l.map (fun e => Edge.mk e.c (e.p * q))).getLastD z₁).p)
        = (l.getLastD z₂).p * q := by
  induction l with
  | nil => intro q z₁ z₂ h; exact absurd rfl h
  | cons x rest ih =>
      intro q z₁ z₂ _
      by_cases hr : rest = []
      · subst hr
        simp
      · simp only [List.map_cons, List.getLastD_cons]
        exact ih q _ x hr

/-- A scaled non-decreasing edge list is non-decreasing, for a nonnegative
factor. -/
theorem chain_scale (l : EdgeList) (q : ℚ) (hq : 0 ≤ q)
    (h : List.Chain' (fun x y => x.p ≤ y.p) l) :
    List.Chain' (fun x y => x.p ≤ y.p) (l.map (fun e => Edge.mk e.c (e.p * q))) := by
  rw [List.chain'_map]
  exact h.imp (fun _ _ hab => mul_le_mul_of_nonneg_right hab hq)

/-- For a well-formed row, `finalizeRow` produces a non-empty CDF with
non-decreasing entries whose last entry is exactly 1. -/
theorem finalizeRow_valid (row : EdgeMap) (h : RowPos row) :
    (finalizeRow row).2 ≠ [] ∧
      List.Chain' (fun x y => x.p ≤ y.p) (finalizeRow row).2 ∧
      ∀ z : Edge, (((finalizeRow row).2.getLastD z).p) = 1 := by
  have hsum : (cdfScan row 0).2 = (row.map Prod.snd).sum := by
    rw [cdfScan_snd]; ring
  have hpos : 0 < (cdfScan row 0).2 := by
    rw [hsum]
    refine List.sum_pos _ ?_ (by simpa using h.1)
    intro p hp
    obtain ⟨kv, hkv, rfl⟩ := List.mem_map.1 hp
    exact h.2 kv hkv
  have hnn : ∀ kv ∈ row, 0 ≤ kv.2 := fun kv hkv => le_of_lt (h.2 kv hkv)
  simp only [finalizeRow, if_pos hpos]
  refine ⟨by simpa using cdfScan_ne_nil row 0 h.1, ?_, ?_⟩
  · exact chain_scale _ _ (by positivity) (cdfScan_chain row 0 hnn)
  · intro z
    have hne := cdfScan_ne_nil row 0 h.1
    calc (((cdfScan row 0).1.map
            (fun e => Edge.mk e.c (e.p * (1 / (cdfScan row 0).2)))).getLastD z).p
        = ((cdfScan row 0).1.getLastD z).p * (1 / (cdfScan row 0).2) :=
          getLastD_scale _ _ _ z hne
      _ = (cdfScan row 0).2 * (1 / (cdfScan row 0).2) := by
          rw [cdfScan_getLast row 0 z h.1]
      _ = 1 := by
          field_simp

/-- Inserting a fresh key into a CDF table appends it. -/
theorem cdfPut_notMem (ct : CdfTable) (s : State) (es : EdgeList)
    (h : s ∉ ct.map Prod.fst) : cdfPut ct s es = ct ++ [(s, es)] := by
  induction ct with
  | nil => simp [cdfPut]
  | cons kv rest ih =>
      obtain ⟨t, cdf⟩ := kv
      simp only [List.map_cons, List.mem_cons] at h
      push_neg at h
      simp only [cdfPut, if_neg (fun hh : t = s => h.1 hh.symm), List.cons_append]
      rw [ih h.2]

/-- The finalize fold over rows with distinct keys, starting from a table
none of whose keys occur among the rows, appends one CDF row per
frequency row. -/
theorem foldl_finalizeStep_cdfs (tm : TransMatrix) :
    ∀ (ta : TransMatrix) (ca : CdfTable),
      (tm.map Prod.fst).Nodup →
      (∀ x ∈ tm.map Prod.fst, x ∉ ca.map Prod.fst) →
      (tm.foldl finalizeStep (ta, ca)).2
        = ca ++ tm.map (fun e => (e.1, (finalizeRow e.2).2)) := by
  induction tm with
  | nil => intro ta ca _ _; simp
  | cons e rest ih =>
      intro ta ca hnd hdisj
      simp only [List.foldl_cons, List.map_cons]
      have hstep : finalizeStep (ta, ca) e
          = (ta ++ [(e.1, (finalizeRow e.2).1)], ca ++ [(e.1, (finalizeRow e.2).2)]) := by
        simp only [finalizeStep]
        rw [cdfPut_notMem ca e.1 _ (hdisj e.1 (by simp))]
      rw [hstep]
      rw [ih _ _ (by simpa using hnd.of_cons) ?_]
      · simp
      · intro x hx
        simp only [List.map_append, List.mem_append]
        push_neg
        refine ⟨hdisj x (by simp [hx]), ?_⟩
        simp only [List.map_cons, List.map_nil, List.mem_singleton]
        intro hxe
        rw [List.map_cons, List.nodup_cons] at hnd
        exact hnd.1 (hxe ▸ hx)

/-- On an invariant-satisfying model, `finalize` produces exactly one CDF
row per frequency row, keyed by the row's state. -/
theorem finalize_cdfs_of_inv (m : RWG) (h : ModelInv m) :
    (finalize m).cdfs
      = m.transitionMatrix.map (fun e => (e.1, (finalizeRow e.2).2)) := by
  unfold finalize
  rw [if_neg (by simp [h.2.2.2])]
  simp only
  rw [foldl_finalizeStep_cdfs m.transitionMatrix [] m.cdfs h.1 (by simp [h.2.2.1])]
  simp [h.2.2.1]

/-- C7 (amended): after `finalize()` on any model reachable by training
calls with strictly positive weights, every CDF row present is non-empty,
its cumulative values are non-decreasing, and its final cumulative value
is exactly 1 (in particular within the 1e-5 tolerance). -/
theorem finalize_cdf_rows_valid (m : RWG) (hm : ReachablePos m) :
    ∀ (s : State) (cdf : EdgeList), (s, cdf) ∈ (finalize m).cdfs →
      cdf ≠ [] ∧ List.Chain' (fun a b => a.p ≤ b.p) cdf ∧
        (cdf.getLastD ⟨TERMINATOR, 0⟩).p = 1 := by
  have hinv : ModelInv m := ReachablePos_ModelInv m hm
  intro s cdf hmem
  rw [finalize_cdfs_of_inv m hinv] at hmem
  obtain ⟨e, he, heq⟩ := List.mem_map.1 hmem
  have hcdf : cdf = (finalizeRow e.2).2 := (Prod.ext_iff.1 heq).2.symm
  subst hcdf
  obtain ⟨h1, h2, h3⟩ := finalizeRow_valid e.2 (hinv.2.1 e he)
  exact ⟨h1, h2, h3 _⟩

/-- Witness for C7 (amended): the CDF row of the initial context of the
finalized `trainedA` is non-empty, non-decreasing and ends at exactly 1. -/
theorem finalize_cdf_rows_valid_witness :
    ([⟨97, (1 : ℚ)⟩] : EdgeList) ≠ [] ∧
      List.Chain' (fun a b => a.p ≤ b.p) ([⟨97, (1 : ℚ)⟩] : EdgeList) ∧
      (([⟨97, (1 : ℚ)⟩] : EdgeList).getLastD ⟨TERMINATOR, 0⟩).p = 1 :=
  finalize_cdf_rows_valid trainedA
    (ReachablePos.word (mkRWG defaultAlphabet) [97] 1
      (ReachablePos.init defaultAlphabet) one_pos)
    (0, 0, 0) [⟨97, 1⟩]
    (by rw [finalize_trainedA_eval]; simp)

/-- Counterexample to C7: training `"a"` with weight 1 and `"b"` with
weight -1 is a reachable model state, and after `finalize()` the CDF row
of the initial context ends at cumulative value 0, which is not within
1e-5 of 1 (the row is also not non-decreasing in insertion order). -/
theorem finalize_cdf_tolerance_violated :
    cdfGet (finalize trainedANegB).cdfs (TERMINATOR, TERMINATOR, TERMINATOR)
        = some [⟨97, 1⟩, ⟨98, 0⟩] ∧
      ¬ |(([⟨97, (1 : ℚ)⟩, ⟨98, 0⟩] : EdgeList).getLastD ⟨TERMINATOR, 0⟩).p - 1|
          ≤ 1 / 100000 := by
  constructor
  · norm_num [-Prod.mk_zero_zero, finalize, trainedANegB, trainedA, analyzeWord,
      analyzeLoop, mkRWG, defaultAlphabet, inAlphabet, tmBump, emBump, shift,
      TERMINATOR, cdfScan, finalizeRow, finalizeStep, cdfPut, cdfGet, List.range_succ]
  · norm_num [List.getLastD, TERMINATOR]

/-!
Properties of the factory stream operators.
-/

/-- The extraction loop never touches the finalized flag or the frequency
table. -/
theorem fReadLoop_flags (l : List FIdx) :
    ∀ (s : IStream) (F : Factory),
      (fReadLoop s F l).2.finalized = F.finalized ∧
        (fReadLoop s F l).2.frequencies = F.frequencies := by
  induction l with
  | nil => intro s F; exact ⟨rfl, rfl⟩
  | cons idx rest ih =>
      intro s F
      simp only [fReadLoop]
      split
      · exact ⟨rfl, rfl⟩
      · exact ih _ _

/-- C4 (amended): on every input stream, well-formed or not, `operator>>`
never alters the destination factory's finalized flag (so a fresh factory
remains unfinalized after a failed read) or its frequency table.  The
read is not all-or-nothing, however: the destination's CDF table can be
modified by a failing read (see the counterexample). -/
theorem fRead_preserves_flags (s : IStream) (F : Factory) :
    (fRead s F).2.finalized = F.finalized ∧
      (fRead s F).2.frequencies = F.frequencies :=
  fReadLoop_flags enumFIdx s F

/-- Counterexample to C4: reading the stream `"0.5 1.5"` fails (the value
`1.5` lies outside `[0, 1]`), but the first value has been stored anyway:
the destination's CDF cell for the first enumerated index has changed
from 0 to 0.5, so the model is not left in its pre-read state. -/
theorem fRead_partial_write :
    ¬ ((3 : ℚ) / 2 ≤ 1) ∧
      (fRead (streamOfVals [1/2, 3/2]) mkFactory).2.cdfs (0, 0, 0, 0) = 1/2 ∧
      mkFactory.cdfs (0, 0, 0, 0) = 0 := by
  refine ⟨by norm_num, ?_, rfl⟩
  obtain ⟨tl, htl⟩ : ∃ tl, enumFIdx
      = ((0 : Fin 27), (0 : Fin 27), (0 : Fin 27), (0 : Fin 27))
        :: ((0 : Fin 27), (0 : Fin 27), (0 : Fin 27), (1 : Fin 27)) :: tl :=
    ⟨enumFIdx.tail.tail, rfl⟩
  rw [fRead, htl]
  simp only [fReadLoop, streamOfVals, extractFloat]
  norm_num [Function.update_apply]

/-- A successful pass of the extraction loop (all supplied values in
`[0, 1]`) stores exactly the supplied value at every processed index. -/
theorem fReadLoop_success (g : FIdx → ℚ) :
    ∀ (l : List FIdx) (F : Factory) (rest : List (Option ℚ)),
      (∀ idx ∈ l, 0 ≤ g idx ∧ g idx ≤ 1) →
      ∀ q : FIdx,
        (fReadLoop ⟨(l.map (fun idx => some (g idx))) ++ rest, false, false⟩ F l).2.cdfs q
          = if q ∈ l then g q else F.cdfs q := by
  intro l
  induction l with
  | nil => intro F rest _ q; simp [fReadLoop]
  | cons idx l ih =>
      intro F rest hb q
      have hstep : extractFloat ⟨some (g idx) :: (l.map (fun x => some (g x)) ++ rest),
          false, false⟩
          = (⟨l.map (fun x => some (g x)) ++ rest, false, false⟩, g idx) := by
        simp [extractFloat]
      simp only [List.map_cons, List.cons_append, fReadLoop, hstep]
      rw [if_neg ?_]
      · rw [ih _ rest (fun x hx => hb x (List.mem_cons_of_mem _ hx)) q]
        by_cases hq : q ∈ l
        · rw [if_pos hq, if_pos (List.mem_cons_of_mem _ hq)]
        · rw [if_neg hq]
          dsimp only
          rw [Function.update_apply]
          by_cases hqi : q = idx
          · rw [if_pos hqi, if_pos (by simp [hqi]), hqi]
          · rw [if_neg hqi, if_neg (by simp [hqi, hq])]
      · push_neg
        refine ⟨by simp, ?_, ?_⟩
        · exact (hb idx (by simp)).1
        · exact (hb idx (by simp)).2

/-- Every dense index occurs in the enumeration. -/
theorem mem_enumFIdx (q : FIdx) : q ∈ enumFIdx := by
  obtain ⟨i, j, k, m⟩ := q
  simp only [enumFIdx, List.mem_flatMap, List.mem_map]
  exact ⟨i, List.mem_finRange i, j, List.mem_finRange j, k, List.mem_finRange k,
    m, List.mem_finRange m, rfl⟩

/-- The frequency table of `factoryA`, written out pointwise. -/
theorem factoryA_freq_eval (idx : FIdx) :
    factoryA.frequencies idx
      = Function.update (Function.update (fun _ => (0 : ℚ))
          (FTERM, FTERM, FTERM, (0 : Fin 27)) 1)
          (FTERM, FTERM, (0 : Fin 27), FTERM) 1 idx := by
  have h97 : fIndexOf 97 = (0 : Fin 27) := by decide
  have hc : F_ALPHABET.contains 97 = true := by decide
  have hm : 97 ∈ F_ALPHABET := by decide
  have hBA : ((FTERM, FTERM, (0 : Fin 27), FTERM) : FIdx)
      ≠ (FTERM, FTERM, FTERM, (0 : Fin 27)) := by decide
  norm_num [factoryA, fFinalize, fAnalyzeWord, fAnalyzeLoop, mkFactory, h97, hc, hm,
    Function.update_apply, hBA]

/-- The bounds needed by the read loop hold for `factoryA`'s frequencies. -/
theorem factoryA_freq_bounds (idx : FIdx) :
    0 ≤ factoryA.frequencies idx ∧ factoryA.frequencies idx ≤ 1 := by
  rw [factoryA_freq_eval idx]
  rw [Function.update_apply, Function.update_apply]
  by_cases h1 : idx = (FTERM, FTERM, (0 : Fin 27), FTERM)
  · rw [if_pos h1]
    norm_num
  · rw [if_neg h1]
    by_cases h2 : idx = (FTERM, FTERM, FTERM, (0 : Fin 27))
    · rw [if_pos h2]
      norm_num
    · rw [if_neg h2]
      norm_num

/-- The value of `factoryA`'s frequency row at the initial context. -/
theorem factoryA_freq_row (t : Fin 27) :
    factoryA.frequencies (FTERM, FTERM, FTERM, t)
      = if t = (0 : Fin 27) then (1 : ℚ) else 0 := by
  have h260 : FTERM ≠ (0 : Fin 27) := by decide
  rw [factoryA_freq_eval, Function.update_apply, Function.update_apply]
  have hB : ((FTERM, FTERM, FTERM, t) : FIdx) ≠ (FTERM, FTERM, (0 : Fin 27), FTERM) :=
    fun h => h260 (congrArg (fun q : FIdx => q.2.2.1) h)
  rw [if_neg hB]
  by_cases hA : t = (0 : Fin 27)
  · rw [if_pos hA, if_pos (by rw [hA])]
  · rw [if_neg hA, if_neg (fun h => hA (congrArg (fun q : FIdx => q.2.2.2) h))]

/-- The row sum of `factoryA`'s initial context is 1. -/
theorem factoryA_rowSum :
    fRowSum factoryA.frequencies FTERM FTERM FTERM = 1 := by
  unfold fRowSum
  rw [Finset.sum_congr rfl (fun t _ => factoryA_freq_row t)]
  simp

/-- The cumulative sum of `factoryA`'s initial context up to index 1 is 1. -/
theorem factoryA_cumul_one :
    fCumul factoryA.frequencies FTERM FTERM FTERM 1 = 1 := by
  unfold fCumul
  rw [Finset.sum_congr rfl (fun t _ => factoryA_freq_row t)]
  rw [Finset.sum_ite_eq' (Finset.univ.filter (fun t : Fin 27 => t ≤ 1)) (0 : Fin 27)
    (fun _ => (1 : ℚ))]
  rw [if_pos (by decide)]

/-- C1 (code bug): the factory trained on `"a"` with weight 1 and
finalized, when encoded with `operator<<` and decoded with `operator>>`
into a fresh factory, yields a CDF value 0 at context
`(Terminator, Terminator, Terminator)` entry index 1, where the original
model's CDF value is 1: the stream operators do not round-trip (the writer
emits the frequency table while the reader fills the CDF table). -/
theorem codec_roundtrip_mismatch :
    (fRead (streamOfVals (fWrite factoryA)) mkFactory).2.cdfs
        (FTERM, FTERM, FTERM, 1) = 0 ∧
      factoryA.cdfs (FTERM, FTERM, FTERM, 1) = 1 := by
  constructor
  · have hs : streamOfVals (fWrite factoryA)
        = ⟨(enumFIdx.map (fun idx => some (factoryA.frequencies idx))) ++ [],
            false, false⟩ := by
      simp [streamOfVals, fWrite, List.map_map, Function.comp_def]
    rw [fRead, hs]
    rw [fReadLoop_success factoryA.frequencies enumFIdx mkFactory []
      (fun idx _ => factoryA_freq_bounds idx) (FTERM, FTERM, FTERM, 1)]
    rw [if_pos (mem_enumFIdx _)]
    rw [factoryA_freq_eval, Function.update_apply, Function.update_apply]
    rw [if_neg (by decide), if_neg (by decide)]
  · have hXf : (fAnalyzeWord mkFactory [97] 1).2.frequencies
        = factoryA.frequencies := rfl
    show (fFinalize (fAnalyzeWord mkFactory [97] 1).2).cdfs (FTERM, FTERM, FTERM, 1) = 1
    simp only [fFinalize, hXf]
    rw [factoryA_rowSum]
    rw [if_pos (by norm_num)]
    rw [factoryA_cumul_one]
    norm_num

end NameGen
